import Mathlib

/-!
Verification development for the game-theory-models repository
(normal_form_game.py, fictplay.py, logitdyn.py, util.py).

Python ndarrays of payoffs are embedded as `PTensor`: a list of axis sizes
(`dims`) together with a total entry function from multi-indices to `ℚ`.
Pure actions are natural numbers, mixed actions are rational lists.
Stateful simulation code is embedded as explicit state passing.
-/

namespace GTM

/-- A payoff array: `dims` is the list of axis sizes (own action first,
then the opponents in cyclic order), `entry` looks up a payoff by
multi-index, as `payoff_array[a_0, ..., a_{M-1}]` does. -/
structure PTensor where
  dims : List ℕ
  entry : List ℕ → ℚ

/-- An action of an opponent as accepted by `Player.payoff_vector`: an integer
(pure action) or an array of floats (mixed action). -/
inductive ActionE where
  | pure (a : ℕ)
  | mixed (x : List ℚ)

/-- Source `pure2mixed(num_actions, action)` from normal_form_game.py: the
one-hot array of length `num_actions` with a 1 at `action`. -/
def pure2mixed (num_actions : ℕ) (action : ℕ) : List ℚ :=
  (List.range num_actions).map (fun i => if i = action then 1 else 0)

/-- Source `reduce_last_player(payoff_array, action)` from
`Player.payoff_vector`: fix the last axis to a pure action
(`payoff_array.take(action, axis=-1)`), or contract the last axis with a
mixed action (`payoff_array.dot(action)`). -/
def reduce_last_player (T : PTensor) : ActionE → PTensor
  | ActionE.pure a => ⟨T.dims.dropLast, fun idx => T.entry (idx ++ [a])⟩
  | ActionE.mixed x =>
      ⟨T.dims.dropLast,
       fun idx => ∑ k ∈ Finset.range ((T.dims.getLast?).getD 0),
         T.entry (idx ++ [k]) * x.getD k 0⟩

/-- Source `Player.payoff_vector(opponents_actions)`: contract the payoff array
one opponent at a time, from the last opponent axis inward
(`for i in reversed(range(self.num_opponents))`).  The `num_opponents`
0/1/≥2 branches of the source all instantiate this fold. -/
def payoff_vector (T : PTensor) (opp : List ActionE) : PTensor :=
  opp.foldr (fun a S => reduce_last_player S a) T

/-- The profile in which each pure action `a_j` is replaced by its one-hot
mixed-action equivalent `pure2mixed(n_j, a_j)`. -/
def mixedProfile (ds as : List ℕ) : List ActionE :=
  List.zipWith (fun n a => ActionE.mixed (pure2mixed n a)) ds as

lemma pure2mixed_getD (n a k : ℕ) (hk : k < n) :
    (pure2mixed n a).getD k 0 = if k = a then 1 else 0 := by
  simp [pure2mixed, List.getD_eq_getElem?_getD, List.getElem?_map,
    List.getElem?_range, hk]

lemma payoff_vector_pure_mixed_aux :
    ∀ (as ds front : List ℕ) (T : PTensor),
      T.dims = front ++ ds → as.length = ds.length →
      (∀ j, j < as.length → as.getD j 0 < ds.getD j 0) →
      (payoff_vector T (as.map ActionE.pure)).dims = front ∧
      (payoff_vector T (mixedProfile ds as)).dims = front ∧
      (payoff_vector T (as.map ActionE.pure)).entry
        = (payoff_vector T (mixedProfile ds as)).entry := by
  intro as
  induction as with
  | nil =>
      intro ds front T hdims hlen _
      cases ds with
      | nil =>
          refine ⟨?_, ?_, rfl⟩ <;> simpa [payoff_vector, mixedProfile] using hdims
      | cons d ds' => simp at hlen
  | cons a as' ih =>
      intro ds front T hdims hlen hb
      cases ds with
      | nil => simp at hlen
      | cons d ds' =>
          have hlen' : as'.length = ds'.length := by
            simpa using hlen
          have hb' : ∀ j, j < as'.length → as'.getD j 0 < ds'.getD j 0 := by
            intro j hj
            have := hb (j+1) (by simpa using Nat.succ_lt_succ hj)
            simpa using this
          have hdims' : T.dims = (front ++ [d]) ++ ds' := by
            simpa [List.append_assoc] using hdims
          obtain ⟨hPd, hMd, hE⟩ := ih ds' (front ++ [d]) T hdims' hlen' hb'
          have ha : a < d := by
            have := hb 0 (by simp)
            simpa using this
          refine ⟨?_, ?_, ?_⟩
          · show ((reduce_last_player
                (payoff_vector T (as'.map ActionE.pure)) (ActionE.pure a))).dims = front
            simp [reduce_last_player, hPd]
          · show ((reduce_last_player
                (payoff_vector T (mixedProfile ds' as'))
                (ActionE.mixed (pure2mixed d a)))).dims = front
            simp [reduce_last_player, hMd]
          · funext idx
            show (reduce_last_player
                (payoff_vector T (as'.map ActionE.pure)) (ActionE.pure a)).entry idx
              = (reduce_last_player
                (payoff_vector T (mixedProfile ds' as'))
                (ActionE.mixed (pure2mixed d a))).entry idx
            have hlast : ((payoff_vector T (mixedProfile ds' as')).dims.getLast?).getD 0 = d := by
              simp [hMd]
            simp only [reduce_last_player, hlast]
            have hsum :
                (∑ k ∈ Finset.range d,
                  (payoff_vector T (mixedProfile ds' as')).entry (idx ++ [k])
                    * (pure2mixed d a).getD k 0)
                = (payoff_vector T (mixedProfile ds' as')).entry (idx ++ [a]) := by
              have h1 : ∀ k ∈ Finset.range d,
                  (payoff_vector T (mixedProfile ds' as')).entry (idx ++ [k])
                    * (pure2mixed d a).getD k 0
                  = if k = a then
                      (payoff_vector T (mixedProfile ds' as')).entry (idx ++ [k]) else 0 := by
                intro k hk
                rw [pure2mixed_getD d a k (Finset.mem_range.mp hk)]
                by_cases h : k = a <;> simp [h]
              rw [Finset.sum_congr rfl h1]
              rw [Finset.sum_ite_eq' (Finset.range d) a]
              simp [ha]
            rw [hsum, hE]

/-- C1: For every player payoff tensor and every profile of opponent
pure actions (each in range), `payoff_vector` on the pure profile and
`payoff_vector` on the profile of one-hot mixed actions
`pure2mixed(n_j, a_j)` agree entrywise, and both are length-`n_i`
vectors (a single remaining axis of size `n_i`). -/
theorem payoff_vector_pure_eq_mixed (T : PTensor) (n : ℕ) (ds as : List ℕ)
    (hdims : T.dims = n :: ds) (hlen : as.length = ds.length)
    (hb : ∀ j, j < as.length → as.getD j 0 < ds.getD j 0) :
    (payoff_vector T (as.map ActionE.pure)).entry
        = (payoff_vector T (mixedProfile ds as)).entry ∧
    (payoff_vector T (as.map ActionE.pure)).dims = [n] ∧
    (payoff_vector T (mixedProfile ds as)).dims = [n] := by
  have h := payoff_vector_pure_mixed_aux as ds [n] T (by simpa using hdims) hlen hb
  exact ⟨h.2.2, h.1, h.2.1⟩

/-- Build a 2-player payoff tensor from a payoff matrix (rows: own
actions, columns: the actions of the opponent). -/
def ofMatrix (m : List (List ℚ)) : PTensor :=
  ⟨[m.length, (m.headD []).length],
   fun idx => (m.getD (idx.getD 0 0) []).getD (idx.getD 1 0) 0⟩

/-- Concrete payoff tensor of `Player([[3, 1], [0, 2]])` from the
normal_form_game.py doctests. -/
def t0 : PTensor := ofMatrix [[3, 1], [0, 2]]

/-- Witness for C1 at the concrete player `Player([[3, 1], [0, 2]])`
against the pure opponent action 1. -/
theorem payoff_vector_pure_eq_mixed_witness :
    (payoff_vector t0 ([1].map ActionE.pure)).entry
        = (payoff_vector t0 (mixedProfile [2] [1])).entry ∧
    (payoff_vector t0 ([1].map ActionE.pure)).dims = [2] ∧
    (payoff_vector t0 (mixedProfile [2] [1])).dims = [2] :=
  payoff_vector_pure_eq_mixed t0 2 [2] [1] rfl (by decide) (by decide)

/-! Part: Best responses (`Player.best_response`, normal_form_game.py) -/

/-- Source `Player.tol`, the tolerance `1e-8` set in `Player.__init__`. -/
def np_tol : ℚ := 1 / 100000000

/-- Source `Player.num_actions = payoff_array.shape[0]`. -/
def numActions (T : PTensor) : ℕ := T.dims.headD 0

/-- The payoff vector as a 1-dimensional array: entry `h` is the payoff
to own action `h` given the actions of the opponents. -/
def pvList (T : PTensor) (opp : List ActionE) : List ℚ :=
  (List.range (numActions T)).map (fun h => (payoff_vector T opp).entry [h])

/-- Source `ndarray.max()` on a 1-dimensional array (0 on the empty array,
on which numpy errors instead). -/
def listMax (l : List ℚ) : ℚ :=
  match l with
  | [] => 0
  | x :: xs => xs.foldl max x

lemma le_foldl_max (xs : List ℚ) : ∀ a : ℚ, a ≤ xs.foldl max a := by
  induction xs with
  | nil => intro a; simp
  | cons x xs ih =>
      intro a
      exact le_trans (le_max_left a x) (ih (max a x))

lemma mem_le_foldl_max (xs : List ℚ) :
    ∀ (a x : ℚ), x ∈ xs → x ≤ xs.foldl max a := by
  induction xs with
  | nil => intro a x hx; simp at hx
  | cons y ys ih =>
      intro a x hx
      rcases List.mem_cons.mp hx with h | h
      · subst h
        exact le_trans (le_max_right a x) (le_foldl_max ys (max a x))
      · exact ih (max a y) x h

lemma foldl_max_mem (xs : List ℚ) :
    ∀ a : ℚ, xs.foldl max a = a ∨ xs.foldl max a ∈ xs := by
  induction xs with
  | nil => intro a; left; rfl
  | cons y ys ih =>
      intro a
      rcases ih (max a y) with h | h
      · rcases max_choice a y with h2 | h2
        · left; simpa [h2] using h
        · right
          simp only [List.foldl_cons]
          rw [h, h2]
          exact List.mem_cons_self y ys
      · right
        simp only [List.foldl_cons]
        exact List.mem_cons_of_mem y h

lemma listMax_mem {l : List ℚ} (h : l ≠ []) : listMax l ∈ l := by
  cases l with
  | nil => exact absurd rfl h
  | cons x xs =>
      rcases foldl_max_mem xs x with h2 | h2
      · simp [listMax, h2]
      · simpa [listMax] using Or.inr h2

lemma le_listMax {l : List ℚ} {x : ℚ} (h : x ∈ l) : x ≤ listMax l := by
  cases l with
  | nil => simp at h
  | cons y ys =>
      rcases List.mem_cons.mp h with h2 | h2
      · subst h2
        exact le_foldl_max ys x
      · exact mem_le_foldl_max ys y x h2

/-- Source `np.argmax` on a 1-dimensional array: index of the first occurrence
of the maximum value. -/
def argmax (l : List ℚ) : ℕ := l.findIdx (fun x => decide (listMax l ≤ x))

lemma argmax_lt_length {l : List ℚ} (h : l ≠ []) : argmax l < l.length := by
  apply List.findIdx_lt_length_of_exists
  exact ⟨listMax l, listMax_mem h, by simp⟩

lemma getD_argmax {l : List ℚ} (h : l ≠ []) :
    l.getD (argmax l) 0 = listMax l := by
  have hlt : argmax l < l.length := argmax_lt_length h
  have h1 : l.getD (argmax l) 0 = l.get ⟨argmax l, hlt⟩ := by
    simp [List.getD_eq_getElem?_getD, List.getElem?_eq_getElem hlt]
  have h2 := List.findIdx_get (p := fun x => decide (listMax l ≤ x)) (w := hlt)
  have h3 : listMax l ≤ l.get ⟨argmax l, hlt⟩ := by simpa using h2
  have h4 : l.get ⟨argmax l, hlt⟩ ≤ listMax l := le_listMax (l.get_mem _ _)
  rw [h1]
  exact le_antisymm h4 h3

/-- Source `np.where(payoff_vector >= payoff_vector.max() - self.tol)[0]`:
the ascending list of indices whose payoff is within `tol` of the
maximum. -/
def best_responses (pv : List ℚ) : List ℕ :=
  (List.range pv.length).filter (fun i => decide (listMax pv - np_tol ≤ pv.getD i 0))

/-- Source `Player.random_choice(actions)` with the uniform integer draw made
explicit: when there is exactly one candidate the RNG is not consulted
(`idx = 0`), otherwise the candidate at index `draw` is returned. -/
def random_choice (actions : List ℕ) (draw : ℕ) : ℕ :=
  if actions.length = 1 then actions.getD 0 0 else actions.getD draw 0

/-- The `tie_breaking` argument as passed in Python: a string or a
boolean. -/
inductive TieBreaking where
  | str (s : String)
  | bool (b : Bool)
deriving DecidableEq

/-- The return value of `Player.best_response`: a single pure action or
an array of pure actions. -/
inductive BRResult where
  | act (a : ℕ)
  | acts (l : List ℕ)
deriving DecidableEq

/-- Source `payoff_vector += payoff_perturbation` when a perturbation is given. -/
def apply_pert (pv : List ℚ) : Option (List ℚ) → List ℚ
  | none => pv
  | some e => List.zipWith (· + ·) pv e

/-- The perturbed payoff vector computed at the top of
`Player.best_response`. -/
def perturbed_pv (T : PTensor) (opp : List ActionE) (pert : Option (List ℚ)) : List ℚ :=
  apply_pert (pvList T opp) pert

/-- Source `Player.best_response(opponents_actions, tie_breaking,
payoff_perturbation, random_state)`, with the uniform integer draw of
`random_choice` made explicit as `draw`.  Raised `ValueError`s are
`Except.error` values. -/
def best_response (T : PTensor) (opp : List ActionE) (tie : TieBreaking)
    (pert : Option (List ℚ)) (draw : ℕ) : Except String BRResult :=
  let pv := perturbed_pv T opp pert
  if tie = TieBreaking.str "smallest" then Except.ok (BRResult.act (argmax pv))
  else
    let brs := best_responses pv
    if tie = TieBreaking.str "random" then
      Except.ok (BRResult.act (random_choice brs draw))
    else if tie = TieBreaking.bool false then Except.ok (BRResult.acts brs)
    else Except.error "tie_breaking must be one of \x27smallest\x27, \x27random\x27 or False"

lemma length_perturbed_pv (T : PTensor) (opp : List ActionE)
    (pert : Option (List ℚ)) (hp : ∀ e ∈ pert, e.length = numActions T) :
    (perturbed_pv T opp pert).length = numActions T := by
  cases pert with
  | none => simp [perturbed_pv, apply_pert, pvList]
  | some e =>
      have he : e.length = numActions T := hp e rfl
      simp [perturbed_pv, apply_pert, pvList, he]

lemma mem_best_responses {pv : List ℚ} {i : ℕ} :
    i ∈ best_responses pv ↔
      i < pv.length ∧ listMax pv - np_tol ≤ pv.getD i 0 := by
  simp [best_responses, List.mem_filter]

lemma argmax_mem_best_responses {pv : List ℚ} (h : pv ≠ []) :
    argmax pv ∈ best_responses pv := by
  rw [mem_best_responses]
  refine ⟨argmax_lt_length h, ?_⟩
  rw [getD_argmax h]
  have : (0 : ℚ) < np_tol := by norm_num [np_tol]
  linarith

/-- C6: with `tie_breaking=False`, `best_response` returns the
non-empty, strictly ascending array of exactly those actions whose
(perturbed) payoff is within `tol` of the maximum; this array contains
the action returned with `tie_breaking` set to the string for smallest
(the argmax) and every action that the random tie-breaking can return. -/
theorem best_response_false_spec (T : PTensor) (opp : List ActionE)
    (pert : Option (List ℚ)) (hn : 1 ≤ numActions T)
    (hp : ∀ e ∈ pert, e.length = numActions T) :
    (∀ draw, best_response T opp (TieBreaking.bool false) pert draw
        = Except.ok (BRResult.acts (best_responses (perturbed_pv T opp pert)))) ∧
    best_responses (perturbed_pv T opp pert) ≠ [] ∧
    List.Pairwise (· < ·) (best_responses (perturbed_pv T opp pert)) ∧
    (∀ i, i ∈ best_responses (perturbed_pv T opp pert) ↔
      i < (perturbed_pv T opp pert).length ∧
        listMax (perturbed_pv T opp pert) - np_tol
          ≤ (perturbed_pv T opp pert).getD i 0) ∧
    (∀ draw, best_response T opp (TieBreaking.str "smallest") pert draw
        = Except.ok (BRResult.act (argmax (perturbed_pv T opp pert)))) ∧
    argmax (perturbed_pv T opp pert) ∈ best_responses (perturbed_pv T opp pert) ∧
    (∀ draw, draw < (best_responses (perturbed_pv T opp pert)).length →
      best_response T opp (TieBreaking.str "random") pert draw
          = Except.ok (BRResult.act
              (random_choice (best_responses (perturbed_pv T opp pert)) draw)) ∧
      random_choice (best_responses (perturbed_pv T opp pert)) draw
          ∈ best_responses (perturbed_pv T opp pert)) := by
  have hne : perturbed_pv T opp pert ≠ [] := by
    have := length_perturbed_pv T opp pert hp
    intro hcon
    rw [hcon] at this
    simp at this
    omega
  refine ⟨?_, ?_, ?_, ?_, ?_, ?_, ?_⟩
  · intro draw; rfl
  · intro hcon
    have := argmax_mem_best_responses hne
    rw [hcon] at this
    simp at this
  · exact List.Pairwise.filter _ (List.pairwise_lt_range _)
  · intro i; exact mem_best_responses
  · intro draw; rfl
  · exact argmax_mem_best_responses hne
  · intro draw hdraw
    refine ⟨rfl, ?_⟩
    unfold random_choice
    by_cases h1 : (best_responses (perturbed_pv T opp pert)).length = 1
    · have h0 : 0 < (best_responses (perturbed_pv T opp pert)).length := by omega
      rw [if_pos h1, List.getD_eq_getElem?_getD, List.getElem?_eq_getElem h0]
      simpa using List.getElem_mem h0
    · rw [if_neg h1, List.getD_eq_getElem?_getD, List.getElem?_eq_getElem hdraw]
      simpa using List.getElem_mem hdraw

/-- Witness for C6 at `Player([[3, 1], [0, 2]])` with perturbation
`[1, 0]`. -/
theorem best_response_false_spec_witness :
    (∀ draw, best_response t0 [ActionE.pure 1] (TieBreaking.bool false) (some [1, 0]) draw
        = Except.ok (BRResult.acts (best_responses (perturbed_pv t0 [ActionE.pure 1] (some [1, 0]))))) ∧
    best_responses (perturbed_pv t0 [ActionE.pure 1] (some [1, 0])) ≠ [] ∧
    List.Pairwise (· < ·) (best_responses (perturbed_pv t0 [ActionE.pure 1] (some [1, 0]))) ∧
    (∀ i, i ∈ best_responses (perturbed_pv t0 [ActionE.pure 1] (some [1, 0])) ↔
      i < (perturbed_pv t0 [ActionE.pure 1] (some [1, 0])).length ∧
        listMax (perturbed_pv t0 [ActionE.pure 1] (some [1, 0])) - np_tol
          ≤ (perturbed_pv t0 [ActionE.pure 1] (some [1, 0])).getD i 0) ∧
    (∀ draw, best_response t0 [ActionE.pure 1] (TieBreaking.str "smallest") (some [1, 0]) draw
        = Except.ok (BRResult.act (argmax (perturbed_pv t0 [ActionE.pure 1] (some [1, 0]))))) ∧
    argmax (perturbed_pv t0 [ActionE.pure 1] (some [1, 0]))
        ∈ best_responses (perturbed_pv t0 [ActionE.pure 1] (some [1, 0])) ∧
    (∀ draw, draw < (best_responses (perturbed_pv t0 [ActionE.pure 1] (some [1, 0]))).length →
      best_response t0 [ActionE.pure 1] (TieBreaking.str "random") (some [1, 0]) draw
          = Except.ok (BRResult.act
              (random_choice (best_responses (perturbed_pv t0 [ActionE.pure 1] (some [1, 0]))) draw)) ∧
      random_choice (best_responses (perturbed_pv t0 [ActionE.pure 1] (some [1, 0]))) draw
          ∈ best_responses (perturbed_pv t0 [ActionE.pure 1] (some [1, 0]))) :=
  best_response_false_spec t0 [ActionE.pure 1] (some [1, 0]) (by decide)
    (by intro e he; simp at he; subst he; rfl)

/-! Part: NormalFormGame profile indexing (`__getitem__` / `__setitem__`) -/

instance : Inhabited PTensor := ⟨⟨[], fun _ => 0⟩⟩

/-- The cyclic rotation `tuple(action_profile[i:]) + tuple(action_profile[:i])`
used by `__getitem__` and `__setitem__`. -/
def rotate (p : List ℕ) (i : ℕ) : List ℕ := p.drop i ++ p.take i

/-- Source `NormalFormGame.__getitem__(action_profile)`: one payoff per player,
each read from the payoff array of that player at the profile rotated to
start at that player. -/
def getitem (players : List PTensor) (profile : List ℕ) : List ℚ :=
  (List.range players.length).map
    (fun i => (players.getD i default).entry (rotate profile i))

/-- Pointwise update of a payoff array at one multi-index
(`payoff_array[idx] = v`). -/
def set_entry (T : PTensor) (idx : List ℕ) (v : ℚ) : PTensor :=
  ⟨T.dims, fun j => if j = idx then v else T.entry j⟩

/-- Source `NormalFormGame.__setitem__(action_profile, payoff_profile)`: each
payoff array of each player is written at the rotated index with that
payoff of that player. -/
def setitem (players : List PTensor) (profile : List ℕ) (payoffs : List ℚ) :
    List PTensor :=
  (List.range players.length).map
    (fun i => set_entry (players.getD i default) (rotate profile i) (payoffs.getD i 0))

lemma getD_map_range {α : Type} (f : ℕ → α) (n i : ℕ) (d : α) (h : i < n) :
    ((List.range n).map f).getD i d = f i := by
  simp [List.getD_eq_getElem?_getD, List.getElem?_map, List.getElem?_range, h]

lemma map_getD_range_eq (v : List ℚ) :
    (List.range v.length).map (fun i => v.getD i 0) = v := by
  apply List.ext_getElem (by simp)
  intro i h1 h2
  simp [List.getD_eq_getElem?_getD, List.getElem?_eq_getElem h2]

lemma rotate_cancel (p : List ℕ) (i : ℕ) (h : i ≤ p.length) :
    rotate (rotate p i) (p.length - i) = p := by
  unfold rotate
  have h1 : (p.drop i).length = p.length - i := List.length_drop i p
  rw [List.drop_left' h1, List.take_left' h1, List.take_append_drop]

lemma rotate_inj {p q : List ℕ} {i : ℕ} (hi : i ≤ p.length)
    (hlen : q.length = p.length) (h : rotate q i = rotate p i) : q = p := by
  have hq := rotate_cancel q i (by omega)
  have hp := rotate_cancel p i hi
  rw [h, hlen] at hq
  rw [hp] at hq
  exact hq.symm

/-- C7: reading `game[profile]` returns, for every player, the payoff
the array of that player assigns at the profile rotated to start at that
player (the cyclic convention); after `game[profile] = payoffs`, reading
`game[profile]` returns exactly the assigned payoffs, and every other
profile still reads its pre-write payoffs (the N arrays stay mutually
consistent). -/
theorem getitem_setitem_roundtrip (players : List PTensor)
    (p q : List ℕ) (v : List ℚ)
    (hp : p.length = players.length) (hv : v.length = players.length)
    (hq : q.length = p.length) :
    getitem players p
      = (List.range players.length).map
          (fun i => (players.getD i default).entry (rotate p i)) ∧
    getitem (setitem players p v) p = v ∧
    (q ≠ p → getitem (setitem players p v) q = getitem players q) := by
  have hlen : (setitem players p v).length = players.length := by
    simp [setitem]
  refine ⟨rfl, ?_, ?_⟩
  · unfold getitem
    rw [hlen]
    have hmap : ∀ i ∈ List.range players.length,
        ((setitem players p v).getD i default).entry (rotate p i) = v.getD i 0 := by
      intro i hi
      have hi' : i < players.length := List.mem_range.mp hi
      rw [setitem, getD_map_range _ _ _ _ hi']
      simp [set_entry]
    rw [List.map_congr_left hmap, ← hv, map_getD_range_eq]
  · intro hne
    unfold getitem
    rw [hlen]
    apply List.map_congr_left
    intro i hi
    have hi' : i < players.length := List.mem_range.mp hi
    rw [setitem, getD_map_range _ _ _ _ hi']
    have hrot : rotate q i ≠ rotate p i := by
      intro hcon
      exact hne (rotate_inj (by omega) hq hcon)
    simp [set_entry, hrot]

/-- Concrete payoff tensor of `Player([[2, 0], [1, 3]])` from the
normal_form_game.py doctests. -/
def t1 : PTensor := ofMatrix [[2, 0], [1, 3]]

/-- Witness for C7 on the doctest game `NormalFormGame((player0, player1))`,
writing payoffs `(9, 7)` at profile `(0, 1)` and re-reading there and at
`(1, 0)`. -/
theorem getitem_setitem_roundtrip_witness :
    getitem [t0, t1] [0, 1]
      = (List.range ([t0, t1] : List PTensor).length).map
          (fun i => (([t0, t1] : List PTensor).getD i default).entry (rotate [0, 1] i)) ∧
    getitem (setitem [t0, t1] [0, 1] [9, 7]) [0, 1] = [9, 7] ∧
    (([1, 0] : List ℕ) ≠ [0, 1] →
      getitem (setitem [t0, t1] [0, 1] [9, 7]) [1, 0] = getitem [t0, t1] [1, 0]) :=
  getitem_setitem_roundtrip [t0, t1] [0, 1] [1, 0] [9, 7] rfl rfl rfl

/-! Part: Fictitious play (fictplay.py), two players as the class documents

State of a `FictitiousPlay` instance: `current_actions = (a0, a1)` and
the two assessment vectors `b0` (the belief of player 0 about player 1, of
length `n_1`) and `b1` (the belief of player 1 about player 0, of length
`n_0`).  For two players the index juggling in
`set_init_actions` / `update_asseccements` always lands on assessment
index `k = 0` of each player. -/

structure FPState where
  a0 : ℕ
  a1 : ℕ
  b0 : List ℚ
  b1 : List ℚ

/-- One in-place assessment update from `update_asseccements`:
`assessment[:] *= 1 - step_size; assessment[action] += step_size`. -/
def conv_update (b : List ℚ) (step : ℚ) (a : ℕ) : List ℚ :=
  let b2 := b.map (fun x => x * (1 - step))
  b2.set a (b2.getD a 0 + step)

/-- Source `FictitiousPlay.set_init_actions(init_actions)`: record the initial
actions and set the assessment of each player to the one-hot vector of the
initial action of the opponent. -/
def set_init_actions (n0 n1 i0 i1 : ℕ) : FPState :=
  ⟨i0, i1, pure2mixed n1 i1, pure2mixed n0 i0⟩

/-- The best-response call of `FictitiousPlay.play` for two players:
`player.best_response(player.current_assessment[0], tie_breaking="smallest")`,
i.e. the argmax of the payoff vector against the mixed assessment. -/
def br_on_mixed (T : PTensor) (b : List ℚ) : ℕ :=
  argmax (pvList T [ActionE.mixed b])

/-- Source `FictitiousPlay.play`: the best responses of both players are computed
from the assessments, which `play` does not modify. -/
def fp_play (p0 p1 : PTensor) (s : FPState) : FPState :=
  { s with a0 := br_on_mixed p0 s.b0, a1 := br_on_mixed p1 s.b1 }

/-- Source `FictitiousPlay.update_asseccements(step_size)`: the player 0
assessment is updated with the current action of player 1 and vice versa. -/
def update_asseccements (s : FPState) (step : ℚ) : FPState :=
  { s with b0 := conv_update s.b0 step s.a1, b1 := conv_update s.b1 step s.a0 }

/-- One loop body of `get_time_series_iter` / `iterate_result`:
`self.play()` then `self.update_asseccements(step)`. -/
def fpRound (p0 p1 : PTensor) (s : FPState) (step : ℚ) : FPState :=
  update_asseccements (fp_play p0 p1 s) step

/-- Source `FictitiousPlay._initial_weight`, the default decreasing gain
`lambda t: 1 / (t+1)`. -/
def decreasing_gain (t : ℕ) : ℚ := 1 / ((t : ℚ) + 1)

/-- The belief trajectory of a `FictitiousPlay` run: state `t` is the
state after `t` loop iterations; iteration `t` (0-based) calls
`update_asseccements(step_size(t+1))`, so the round performed at period
`t` uses `step_size(t)`. -/
def fpTraj (p0 p1 : PTensor) (step : ℕ → ℚ) (init : FPState) : ℕ → FPState
  | 0 => init
  | t + 1 => fpRound p0 p1 (fpTraj p0 p1 step init t) (step (t + 1))

/-- Source `StochasticFictitiousPlay.play`: like `fp_play` but the per-player
payoff vector receives an additive perturbation before the argmax. -/
def sfp_play (p0 p1 : PTensor) (e0 e1 : List ℚ) (s : FPState) : FPState :=
  { s with
    a0 := argmax (apply_pert (pvList p0 [ActionE.mixed s.b0]) (some e0)),
    a1 := argmax (apply_pert (pvList p1 [ActionE.mixed s.b1]) (some e1)) }

/-- One loop body of a `StochasticFictitiousPlay` run. -/
def sfpRound (p0 p1 : PTensor) (e0 e1 : List ℚ) (s : FPState) (step : ℚ) :
    FPState :=
  update_asseccements (sfp_play p0 p1 e0 e1 s) step

/-- The belief trajectory of a `StochasticFictitiousPlay` run, with the
per-round perturbation draws passed in as a stream. -/
def sfpTraj (p0 p1 : PTensor) (step : ℕ → ℚ) (perts : ℕ → List ℚ × List ℚ)
    (init : FPState) : ℕ → FPState
  | 0 => init
  | t + 1 => sfpRound p0 p1 (perts (t + 1)).1 (perts (t + 1)).2
      (sfpTraj p0 p1 step perts init t) (step (t + 1))

lemma length_pure2mixed (n a : ℕ) : (pure2mixed n a).length = n := by
  simp [pure2mixed]

lemma sum_onehot_zero (n a : ℕ) (h : n ≤ a) :
    ((List.range n).map (fun i => if i = a then (1 : ℚ) else 0)).sum = 0 := by
  induction n with
  | zero => simp
  | succ m ih =>
      rw [List.range_succ, List.map_append, List.sum_append]
      have hm : m ≠ a := by omega
      rw [ih (by omega)]
      simp [hm]

lemma sum_pure2mixed (n a : ℕ) (h : a < n) : (pure2mixed n a).sum = 1 := by
  induction n with
  | zero => omega
  | succ m ih =>
      unfold pure2mixed
      rw [List.range_succ, List.map_append, List.sum_append]
      by_cases hm : a < m
      · have : m ≠ a := by omega
        have := ih hm
        unfold pure2mixed at this
        rw [this]
        simp [‹m ≠ a›]
      · have ha : a = m := by omega
        subst ha
        rw [sum_onehot_zero a a (le_refl a)]
        simp

lemma sum_set (l : List ℚ) :
    ∀ (a : ℕ) (x : ℚ), a < l.length →
      (l.set a x).sum = l.sum - l.getD a 0 + x := by
  induction l with
  | nil => intro a x h; simp at h
  | cons y ys ih =>
      intro a x h
      cases a with
      | zero => simp; ring
      | succ n =>
          have hn : n < ys.length := by simpa using h
          simp only [List.set_cons_succ, List.sum_cons, List.getD_cons_succ]
          rw [ih n x hn]
          ring

lemma sum_map_scale (l : List ℚ) (c : ℚ) :
    (l.map (fun x => x * c)).sum = l.sum * c := by
  induction l with
  | nil => simp
  | cons y ys ih => simp [ih]; ring

lemma getD_map_scale (l : List ℚ) (c : ℚ) (a : ℕ) (h : a < l.length) :
    (l.map (fun x => x * c)).getD a 0 = l.getD a 0 * c := by
  rw [List.getD_eq_getElem?_getD, List.getD_eq_getElem?_getD,
    List.getElem?_map, List.getElem?_eq_getElem h]
  simp

lemma length_conv_update (b : List ℚ) (step : ℚ) (a : ℕ) :
    (conv_update b step a).length = b.length := by
  simp [conv_update]

lemma sum_conv_update (b : List ℚ) (step : ℚ) (a : ℕ) (ha : a < b.length)
    (hs : b.sum = 1) : (conv_update b step a).sum = 1 := by
  unfold conv_update
  rw [sum_set _ _ _ (by simpa using ha)]
  rw [sum_map_scale, getD_map_scale _ _ _ ha, hs]
  ring

lemma length_pvList (T : PTensor) (opp : List ActionE) :
    (pvList T opp).length = numActions T := by
  simp [pvList]

lemma argmax_lt_of_le {l : List ℚ} {n : ℕ} (hn : 1 ≤ n) (hl : l.length ≤ n) :
    argmax l < n := by
  by_cases h : l = []
  · subst h
    simpa [argmax, List.findIdx] using hn
  · exact lt_of_lt_of_le (argmax_lt_length h) hl

lemma br_on_mixed_lt (T : PTensor) (b : List ℚ) (h : 1 ≤ numActions T) :
    br_on_mixed T b < numActions T :=
  argmax_lt_of_le h (le_of_eq (length_pvList T _))

lemma sfp_action_lt (T : PTensor) (b e : List ℚ) (h : 1 ≤ numActions T) :
    argmax (apply_pert (pvList T [ActionE.mixed b]) (some e)) < numActions T := by
  apply argmax_lt_of_le h
  simp [apply_pert, length_pvList]

/-- The invariant carried through both trajectories: assessment lengths
match the action counts of the opponents and each assessment sums to 1. -/
def FPInv (n0 n1 : ℕ) (s : FPState) : Prop :=
  s.b0.length = n1 ∧ s.b1.length = n0 ∧ s.b0.sum = 1 ∧ s.b1.sum = 1

lemma fpInv_init (n0 n1 i0 i1 : ℕ) (hi0 : i0 < n0) (hi1 : i1 < n1) :
    FPInv n0 n1 (set_init_actions n0 n1 i0 i1) := by
  refine ⟨?_, ?_, ?_, ?_⟩
  · exact length_pure2mixed n1 i1
  · exact length_pure2mixed n0 i0
  · exact sum_pure2mixed n1 i1 hi1
  · exact sum_pure2mixed n0 i0 hi0

lemma fpInv_update {n0 n1 : ℕ} {s : FPState} (hinv : FPInv n0 n1 s)
    (ha0 : s.a0 < n0) (ha1 : s.a1 < n1) (step : ℚ) :
    FPInv n0 n1 (update_asseccements s step) := by
  obtain ⟨hl0, hl1, hs0, hs1⟩ := hinv
  refine ⟨?_, ?_, ?_, ?_⟩
  · rw [update_asseccements, length_conv_update, hl0]
  · rw [update_asseccements, length_conv_update, hl1]
  · exact sum_conv_update _ _ _ (by omega) hs0
  · exact sum_conv_update _ _ _ (by omega) hs1

lemma fpInv_fpRound {p0 p1 : PTensor} {s : FPState}
    (h0 : 1 ≤ numActions p0) (h1 : 1 ≤ numActions p1)
    (hinv : FPInv (numActions p0) (numActions p1) s) (step : ℚ) :
    FPInv (numActions p0) (numActions p1) (fpRound p0 p1 s step) := by
  apply fpInv_update
  · exact ⟨hinv.1, hinv.2.1, hinv.2.2.1, hinv.2.2.2⟩
  · exact br_on_mixed_lt p0 s.b0 h0
  · exact br_on_mixed_lt p1 s.b1 h1

lemma fpInv_sfpRound {p0 p1 : PTensor} {s : FPState} {e0 e1 : List ℚ}
    (h0 : 1 ≤ numActions p0) (h1 : 1 ≤ numActions p1)
    (hinv : FPInv (numActions p0) (numActions p1) s) (step : ℚ) :
    FPInv (numActions p0) (numActions p1) (sfpRound p0 p1 e0 e1 s step) := by
  apply fpInv_update
  · exact ⟨hinv.1, hinv.2.1, hinv.2.2.1, hinv.2.2.2⟩
  · exact sfp_action_lt p0 s.b0 e0 h0
  · exact sfp_action_lt p1 s.b1 e1 h1

/-- C3: for every two-player game, every valid starting pure-action
profile, every gain schedule (covering the decreasing and the constant
gain) and every perturbation stream, the assessments of both players sum
to exactly 1 after initialization and after every round, in both the
deterministic and the stochastic fictitious play. -/
theorem fp_beliefs_sum_one (p0 p1 : PTensor) (i0 i1 : ℕ)
    (hi0 : i0 < numActions p0) (hi1 : i1 < numActions p1)
    (step : ℕ → ℚ) (perts : ℕ → List ℚ × List ℚ) (t : ℕ) :
    ((fpTraj p0 p1 step
        (set_init_actions (numActions p0) (numActions p1) i0 i1) t).b0.sum = 1 ∧
     (fpTraj p0 p1 step
        (set_init_actions (numActions p0) (numActions p1) i0 i1) t).b1.sum = 1) ∧
    ((sfpTraj p0 p1 step perts
        (set_init_actions (numActions p0) (numActions p1) i0 i1) t).b0.sum = 1 ∧
     (sfpTraj p0 p1 step perts
        (set_init_actions (numActions p0) (numActions p1) i0 i1) t).b1.sum = 1) := by
  have h0 : 1 ≤ numActions p0 := by omega
  have h1 : 1 ≤ numActions p1 := by omega
  have hfp : ∀ u, FPInv (numActions p0) (numActions p1)
      (fpTraj p0 p1 step
        (set_init_actions (numActions p0) (numActions p1) i0 i1) u) := by
    intro u
    induction u with
    | zero => exact fpInv_init _ _ _ _ hi0 hi1
    | succ v ih => exact fpInv_fpRound h0 h1 ih _
  have hsfp : ∀ u, FPInv (numActions p0) (numActions p1)
      (sfpTraj p0 p1 step perts
        (set_init_actions (numActions p0) (numActions p1) i0 i1) u) := by
    intro u
    induction u with
    | zero => exact fpInv_init _ _ _ _ hi0 hi1
    | succ v ih => exact fpInv_sfpRound h0 h1 ih _
  exact ⟨⟨(hfp t).2.2.1, (hfp t).2.2.2⟩, ⟨(hsfp t).2.2.1, (hsfp t).2.2.2⟩⟩

/-- Witness for C3 on the coordination game `[[4, 0], [3, 2]]` (both
players), start `(0, 0)`, constant gain `1/10`, a fixed perturbation
stream, after 3 rounds. -/
theorem fp_beliefs_sum_one_witness :
    ((fpTraj (ofMatrix [[4, 0], [3, 2]]) (ofMatrix [[4, 0], [3, 2]])
        (fun _ => 1/10) (set_init_actions 2 2 0 0) 3).b0.sum = 1 ∧
     (fpTraj (ofMatrix [[4, 0], [3, 2]]) (ofMatrix [[4, 0], [3, 2]])
        (fun _ => 1/10) (set_init_actions 2 2 0 0) 3).b1.sum = 1) ∧
    ((sfpTraj (ofMatrix [[4, 0], [3, 2]]) (ofMatrix [[4, 0], [3, 2]])
        (fun _ => 1/10) (fun _ => ([1, 0], [0, 1]))
        (set_init_actions 2 2 0 0) 3).b0.sum = 1 ∧
     (sfpTraj (ofMatrix [[4, 0], [3, 2]]) (ofMatrix [[4, 0], [3, 2]])
        (fun _ => 1/10) (fun _ => ([1, 0], [0, 1]))
        (set_init_actions 2 2 0 0) 3).b1.sum = 1) :=
  fp_beliefs_sum_one (ofMatrix [[4, 0], [3, 2]]) (ofMatrix [[4, 0], [3, 2]])
    0 0 (by decide) (by decide) (fun _ => 1/10) (fun _ => ([1, 0], [0, 1])) 3

lemma fpTraj_length (p0 p1 : PTensor) (step : ℕ → ℚ) (init : FPState) :
    ∀ t, (fpTraj p0 p1 step init t).b0.length = init.b0.length ∧
      (fpTraj p0 p1 step init t).b1.length = init.b1.length := by
  intro t
  induction t with
  | zero => exact ⟨rfl, rfl⟩
  | succ u ih =>
      have hz : fpTraj p0 p1 step init (u + 1)
          = fpRound p0 p1 (fpTraj p0 p1 step init u) (step (u + 1)) := rfl
      rw [hz]
      refine ⟨?_, ?_⟩ <;>
        simp [fpRound, update_asseccements, fp_play, length_conv_update, ih.1, ih.2]

lemma conv_update_eq_convex (b : List ℚ) (step : ℚ) (a : ℕ) (ha : a < b.length) :
    conv_update b step a
      = (List.range b.length).map
          (fun k => (1 - step) * b.getD k 0
            + step * (pure2mixed b.length a).getD k 0) := by
  apply List.ext_getElem
  · simp [conv_update]
  · intro k h1 h2
    have hkb : k < b.length := by simpa [conv_update] using h1
    have hset : k < (b.map (fun x => x * (1 - step))).length := by simpa using hkb
    simp only [conv_update, List.getElem_set, List.getElem_map, List.getElem_range]
    rw [pure2mixed_getD _ _ _ hkb, List.getD_eq_getElem b 0 hkb]
    by_cases hk : a = k
    · subst hk
      rw [if_pos rfl, getD_map_scale _ _ _ ha, if_pos rfl,
        List.getD_eq_getElem b 0 ha]
      ring
    · rw [if_neg hk, if_neg (fun h => hk h.symm)]
      ring

/-- C2: in a `FictitiousPlay` run with the default decreasing gain, the
round performed at period `t ≥ 1` (the loop iteration that produces
state `t` from state `t-1`) records the smallest-index best
responses computed from the pre-round assessments, and then updates both
assessments simultaneously to
`(1 - step(t)) * belief + step(t) * pure2mixed(best response of the
assessed opponent)`, where `step(t) = 1/(t+1)`. -/
theorem fp_round_decreasing_gain (p0 p1 : PTensor) (init : FPState) (t : ℕ)
    (ht : 1 ≤ t)
    (h0 : 1 ≤ numActions p0) (h1 : 1 ≤ numActions p1)
    (hb0 : (fpTraj p0 p1 decreasing_gain init (t - 1)).b0.length = numActions p1)
    (hb1 : (fpTraj p0 p1 decreasing_gain init (t - 1)).b1.length = numActions p0) :
    (fpTraj p0 p1 decreasing_gain init t).a0
        = br_on_mixed p0 (fpTraj p0 p1 decreasing_gain init (t - 1)).b0 ∧
    (fpTraj p0 p1 decreasing_gain init t).a1
        = br_on_mixed p1 (fpTraj p0 p1 decreasing_gain init (t - 1)).b1 ∧
    (fpTraj p0 p1 decreasing_gain init t).b0
        = (List.range (numActions p1)).map
            (fun k => (1 - decreasing_gain t)
                * (fpTraj p0 p1 decreasing_gain init (t - 1)).b0.getD k 0
              + decreasing_gain t
                * (pure2mixed (numActions p1)
                    (br_on_mixed p1 (fpTraj p0 p1 decreasing_gain init (t - 1)).b1)).getD k 0) ∧
    (fpTraj p0 p1 decreasing_gain init t).b1
        = (List.range (numActions p0)).map
            (fun k => (1 - decreasing_gain t)
                * (fpTraj p0 p1 decreasing_gain init (t - 1)).b1.getD k 0
              + decreasing_gain t
                * (pure2mixed (numActions p0)
                    (br_on_mixed p0 (fpTraj p0 p1 decreasing_gain init (t - 1)).b0)).getD k 0) ∧
    decreasing_gain t = 1 / ((t : ℚ) + 1) := by
  obtain ⟨u, rfl⟩ : ∃ u, t = u + 1 := ⟨t - 1, by omega⟩
  have hu : u + 1 - 1 = u := by omega
  rw [hu] at hb0 hb1 ⊢
  have hstep : fpTraj p0 p1 decreasing_gain init (u + 1)
      = fpRound p0 p1 (fpTraj p0 p1 decreasing_gain init u)
          (decreasing_gain (u + 1)) := rfl
  set S := fpTraj p0 p1 decreasing_gain init u with hS
  have hr1 : br_on_mixed p1 S.b1 < numActions p1 := br_on_mixed_lt p1 S.b1 h1
  have hr0 : br_on_mixed p0 S.b0 < numActions p0 := br_on_mixed_lt p0 S.b0 h0
  refine ⟨?_, ?_, ?_, ?_, rfl⟩
  · rw [hstep]; rfl
  · rw [hstep]; rfl
  · rw [hstep]
    show conv_update S.b0 (decreasing_gain (u + 1)) (br_on_mixed p1 S.b1)
      = _
    rw [conv_update_eq_convex S.b0 _ _ (by omega), hb0]
  · rw [hstep]
    show conv_update S.b1 (decreasing_gain (u + 1)) (br_on_mixed p0 S.b0)
      = _
    rw [conv_update_eq_convex S.b1 _ _ (by omega), hb1]

/-- Witness for C2 on the coordination game `[[4, 0], [3, 2]]`, start
`(0, 0)`, at period `t = 2`. -/
theorem fp_round_decreasing_gain_witness :
    (fpTraj (ofMatrix [[4, 0], [3, 2]]) (ofMatrix [[4, 0], [3, 2]])
        decreasing_gain (set_init_actions 2 2 0 0) 2).a0
        = br_on_mixed (ofMatrix [[4, 0], [3, 2]])
            (fpTraj (ofMatrix [[4, 0], [3, 2]]) (ofMatrix [[4, 0], [3, 2]])
              decreasing_gain (set_init_actions 2 2 0 0) (2 - 1)).b0 ∧
    (fpTraj (ofMatrix [[4, 0], [3, 2]]) (ofMatrix [[4, 0], [3, 2]])
        decreasing_gain (set_init_actions 2 2 0 0) 2).a1
        = br_on_mixed (ofMatrix [[4, 0], [3, 2]])
            (fpTraj (ofMatrix [[4, 0], [3, 2]]) (ofMatrix [[4, 0], [3, 2]])
              decreasing_gain (set_init_actions 2 2 0 0) (2 - 1)).b1 ∧
    (fpTraj (ofMatrix [[4, 0], [3, 2]]) (ofMatrix [[4, 0], [3, 2]])
        decreasing_gain (set_init_actions 2 2 0 0) 2).b0
        = (List.range (numActions (ofMatrix [[4, 0], [3, 2]]))).map
            (fun k => (1 - decreasing_gain 2)
                * (fpTraj (ofMatrix [[4, 0], [3, 2]]) (ofMatrix [[4, 0], [3, 2]])
                    decreasing_gain (set_init_actions 2 2 0 0) (2 - 1)).b0.getD k 0
              + decreasing_gain 2
                * (pure2mixed (numActions (ofMatrix [[4, 0], [3, 2]]))
                    (br_on_mixed (ofMatrix [[4, 0], [3, 2]])
                      (fpTraj (ofMatrix [[4, 0], [3, 2]]) (ofMatrix [[4, 0], [3, 2]])
                        decreasing_gain (set_init_actions 2 2 0 0) (2 - 1)).b1)).getD k 0) ∧
    (fpTraj (ofMatrix [[4, 0], [3, 2]]) (ofMatrix [[4, 0], [3, 2]])
        decreasing_gain (set_init_actions 2 2 0 0) 2).b1
        = (List.range (numActions (ofMatrix [[4, 0], [3, 2]]))).map
            (fun k => (1 - decreasing_gain 2)
                * (fpTraj (ofMatrix [[4, 0], [3, 2]]) (ofMatrix [[4, 0], [3, 2]])
                    decreasing_gain (set_init_actions 2 2 0 0) (2 - 1)).b1.getD k 0
              + decreasing_gain 2
                * (pure2mixed (numActions (ofMatrix [[4, 0], [3, 2]]))
                    (br_on_mixed (ofMatrix [[4, 0], [3, 2]])
                      (fpTraj (ofMatrix [[4, 0], [3, 2]]) (ofMatrix [[4, 0], [3, 2]])
                        decreasing_gain (set_init_actions 2 2 0 0) (2 - 1)).b0)).getD k 0) ∧
    decreasing_gain 2 = 1 / ((2 : ℚ) + 1) :=
  fp_round_decreasing_gain (ofMatrix [[4, 0], [3, 2]]) (ofMatrix [[4, 0], [3, 2]])
    (set_init_actions 2 2 0 0) 2 (by decide) (by decide) (by decide)
    (by rw [(fpTraj_length _ _ _ _ _).1]
        simp [set_init_actions, length_pure2mixed, numActions, ofMatrix])
    (by rw [(fpTraj_length _ _ _ _ _).2]
        simp [set_init_actions, length_pure2mixed, numActions, ofMatrix])

/-! Part: `searchsorted` (util.py): custom binary search, right-side
insertion semantics -/

/-- The `while lo < hi-1` loop of `util.searchsorted`, with the Python
floor division `(lo + hi) // 2` rendered as `Int.fdiv`. -/
def ssLoop (a : List ℚ) (v : ℚ) (lo hi : ℤ) : ℤ :=
  if h : lo < hi - 1 then
    let m := Int.fdiv (lo + hi) 2
    if v < a.getD m.toNat 0 then ssLoop a v lo m else ssLoop a v m hi
  else hi
termination_by (hi - lo).toNat
decreasing_by
  all_goals
    rw [Int.fdiv_eq_ediv _ (by norm_num : (0:ℤ) ≤ 2)]
    omega

/-- Source `util.searchsorted(a, v)`: binary search starting from
`lo = -1, hi = len(a)`, returning the final `hi`. -/
def searchsorted (a : List ℚ) (v : ℚ) : ℕ :=
  (ssLoop a v (-1) (a.length : ℤ)).toNat

lemma ssLoop_spec (a : List ℚ) (v : ℚ) :
    ∀ (n : ℕ) (lo hi : ℤ), (hi - lo).toNat = n →
      -1 ≤ lo → lo < hi → hi ≤ (a.length : ℤ) →
      (0 ≤ lo → a.getD lo.toNat 0 ≤ v) →
      (hi < (a.length : ℤ) → v < a.getD hi.toNat 0) →
      lo < ssLoop a v lo hi ∧ ssLoop a v lo hi ≤ hi ∧
      (1 ≤ ssLoop a v lo hi →
        a.getD (ssLoop a v lo hi - 1).toNat 0 ≤ v) ∧
      (ssLoop a v lo hi < (a.length : ℤ) →
        v < a.getD (ssLoop a v lo hi).toNat 0) := by
  intro n
  induction n using Nat.strong_induction_on with
  | _ n ih =>
      intro lo hi hn hlo hlt hhi hinvlo hinvhi
      rw [ssLoop]
      by_cases h : lo < hi - 1
      · rw [dif_pos h]
        have hm : Int.fdiv (lo + hi) 2 = (lo + hi) / 2 :=
          Int.fdiv_eq_ediv _ (by norm_num)
        simp only [hm]
        set m : ℤ := (lo + hi) / 2 with hmdef
        have hmlo : lo < m := by omega
        have hmhi : m < hi := by omega
        by_cases hv : v < a.getD m.toNat 0
        · rw [if_pos hv]
          exact (ih (m - lo).toNat (by omega) lo m rfl hlo hmlo (by omega)
            hinvlo (fun _ => hv)).imp id (fun h2 => ⟨by omega, h2.2.1, h2.2.2⟩)
        · rw [if_neg hv]
          have h2 := ih (hi - m).toNat (by omega) m hi rfl (by omega) hmhi hhi
            (fun _ => le_of_not_lt hv) hinvhi
          exact ⟨by omega, h2.2.1, h2.2.2.1, h2.2.2.2⟩
      · rw [dif_neg h]
        have heq : lo = hi - 1 := by omega
        refine ⟨by omega, le_refl hi, ?_, hinvhi⟩
        intro h1
        have h0 : 0 ≤ lo := by omega
        have : (hi - 1).toNat = lo.toNat := by omega
        rw [this]
        exact hinvlo h0

lemma sorted_getD_mono {a : List ℚ} (hs : List.Sorted (· ≤ ·) a) {i j : ℕ}
    (hij : i ≤ j) (hj : j < a.length) : a.getD i 0 ≤ a.getD j 0 := by
  rcases Nat.eq_or_lt_of_le hij with h | h
  · rw [h]
  · rw [List.getD_eq_getElem a 0 (by omega), List.getD_eq_getElem a 0 hj]
    exact (List.pairwise_iff_getElem.mp hs) i j (by omega) hj h

/-- C9: on an ascending nonempty list, `util.searchsorted` returns 0
when `v` is below the first element, `len(a)` when `v` is at or above
the last element, and in general the unique (hence largest) index `i`
with `a[i-1] <= v < a[i]` in the right-side insertion sense. -/
theorem searchsorted_spec (a : List ℚ) (v : ℚ)
    (hs : List.Sorted (· ≤ ·) a) (hne : a ≠ []) :
    (v < a.getD 0 0 → searchsorted a v = 0) ∧
    (a.getD (a.length - 1) 0 ≤ v → searchsorted a v = a.length) ∧
    searchsorted a v ≤ a.length ∧
    (1 ≤ searchsorted a v → a.getD (searchsorted a v - 1) 0 ≤ v) ∧
    (searchsorted a v < a.length → v < a.getD (searchsorted a v) 0) ∧
    (∀ i, i ≤ a.length → (1 ≤ i → a.getD (i - 1) 0 ≤ v) →
      (i < a.length → v < a.getD i 0) → i = searchsorted a v) := by
  have hlen : 1 ≤ a.length := by
    cases a with
    | nil => exact absurd rfl hne
    | cons x xs => simp
  have h := ssLoop_spec a v ((a.length : ℤ) - (-1)).toNat (-1) (a.length : ℤ)
    rfl (le_refl _) (by omega) (le_refl _) (by omega) (by omega)
  set r : ℤ := ssLoop a v (-1) (a.length : ℤ) with hrdef
  obtain ⟨hr0, hrn, hrlow, hrhigh⟩ := h
  have hr0' : 0 ≤ r := by omega
  have hsr : searchsorted a v = r.toNat := rfl
  have hlow' : 1 ≤ searchsorted a v → a.getD (searchsorted a v - 1) 0 ≤ v := by
    intro h1
    have : 1 ≤ r := by omega
    have := hrlow this
    have heq : (r - 1).toNat = r.toNat - 1 := by omega
    rw [hsr]
    rw [heq] at this
    exact this
  have hhigh' : searchsorted a v < a.length → v < a.getD (searchsorted a v) 0 := by
    intro h1
    rw [hsr]
    exact hrhigh (by omega)
  have hle : searchsorted a v ≤ a.length := by omega
  refine ⟨?_, ?_, hle, hlow', hhigh', ?_⟩
  · intro hv
    by_contra hcon
    have h1 : 1 ≤ searchsorted a v := by omega
    have h2 := hlow' h1
    have h3 : a.getD 0 0 ≤ a.getD (searchsorted a v - 1) 0 :=
      sorted_getD_mono hs (by omega) (by omega)
    linarith
  · intro hv
    by_contra hcon
    have h1 : searchsorted a v < a.length := by omega
    have h2 := hhigh' h1
    have h3 : a.getD (searchsorted a v) 0 ≤ a.getD (a.length - 1) 0 :=
      sorted_getD_mono hs (by omega) (by omega)
    linarith
  · intro i hile hilow hihigh
    by_contra hcon
    rcases Nat.lt_or_ge i (searchsorted a v) with hlt | hge
    · have h1 : 1 ≤ searchsorted a v := by omega
      have h2 := hlow' h1
      have h3 : i < a.length := by omega
      have h4 := hihigh h3
      have h5 : a.getD i 0 ≤ a.getD (searchsorted a v - 1) 0 :=
        sorted_getD_mono hs (by omega) (by omega)
      linarith
    · have hgt : searchsorted a v < i := by omega
      have h1 : 1 ≤ i := by omega
      have h2 := hilow h1
      have h3 : searchsorted a v < a.length := by omega
      have h4 := hhigh' h3
      have h5 : a.getD (searchsorted a v) 0 ≤ a.getD (i - 1) 0 :=
        sorted_getD_mono hs (by omega) (by omega)
      linarith

/-- Witness for C9 on the docstring example `a = [0.2, 0.4, 1.0]`
(with `v = 0.4`, where the returned index is 2, just past the matching
entry). -/
theorem searchsorted_spec_witness :
    (2/5 < ([1/5, 2/5, 1] : List ℚ).getD 0 0 → searchsorted [1/5, 2/5, 1] (2/5) = 0) ∧
    (([1/5, 2/5, 1] : List ℚ).getD (([1/5, 2/5, 1] : List ℚ).length - 1) 0 ≤ 2/5 →
      searchsorted [1/5, 2/5, 1] (2/5) = ([1/5, 2/5, 1] : List ℚ).length) ∧
    searchsorted [1/5, 2/5, 1] (2/5) ≤ ([1/5, 2/5, 1] : List ℚ).length ∧
    (1 ≤ searchsorted [1/5, 2/5, 1] (2/5) →
      ([1/5, 2/5, 1] : List ℚ).getD (searchsorted [1/5, 2/5, 1] (2/5) - 1) 0 ≤ 2/5) ∧
    (searchsorted [1/5, 2/5, 1] (2/5) < ([1/5, 2/5, 1] : List ℚ).length →
      2/5 < ([1/5, 2/5, 1] : List ℚ).getD (searchsorted [1/5, 2/5, 1] (2/5)) 0) ∧
    (∀ i, i ≤ ([1/5, 2/5, 1] : List ℚ).length →
      (1 ≤ i → ([1/5, 2/5, 1] : List ℚ).getD (i - 1) 0 ≤ 2/5) →
      (i < ([1/5, 2/5, 1] : List ℚ).length → 2/5 < ([1/5, 2/5, 1] : List ℚ).getD i 0) →
      i = searchsorted [1/5, 2/5, 1] (2/5)) :=
  searchsorted_spec [1/5, 2/5, 1] (2/5)
    (by norm_num [List.Sorted]) (by decide)

/-! Part: StochasticFictitiousPlay configuration and perturbation slicing -/

/-- Source `opponent_list[i]` from `FictitiousPlay.__init__`: all player
indices except `i`, ascending. -/
def opponent_list (N i : ℕ) : List ℕ :=
  (List.range N).filter (fun j => decide (j ≠ i))

/-- Source `assessment_sizes` from `FictitiousPlay.__init__`: for each player,
the action counts of the opponents of that player in ascending order. -/
def assessment_sizes (nums : List ℕ) : List (List ℕ) :=
  (List.range nums.length).map
    (fun i => (opponent_list nums.length i).map (fun j => nums.getD j 0))

/-- Source `FictitiousPlay._sum_index(i, j)`, with its `i == 0` / `i != 0`
branches as written. -/
def sum_index (sizes : List (List ℕ)) (i j : ℕ) : ℕ :=
  if i = 0 then
    if j = 0 then 0
    else ((List.range j).map (fun k => (sizes.getD 0 []).getD k 0)).sum
  else
    ((List.range i).map (fun k => (sizes.getD k []).sum)).sum
      + ((List.range j).map (fun l => (sizes.getD i []).getD l 0)).sum

/-- The perturbation vectors built by `StochasticFictitiousPlay.play`:
the i.i.d. draw vector `random_values` of length `sum(nums_actions)` is
cut at `_sum_index(j, 0) : _sum_index(j+1, 0)` for each player `j`
(a Python slice is `drop` after `take`). -/
def payoff_perturbations (nums : List ℕ) (random_values : List ℚ) :
    List (List ℚ) :=
  (List.range nums.length).map
    (fun j => (random_values.take (sum_index (assessment_sizes nums) (j+1) 0)).drop
        (sum_index (assessment_sizes nums) j 0))

/-- The distribution configuration stored by
`StochasticFictitiousPlay.__init__`: a Gumbel location/scale pair or the
standard normal. -/
inductive PerturbationDist where
  | gumbel (loc scale : ℝ)
  | stdNormal

/-- Source `np.euler_gamma`, the Euler-Mascheroni constant. -/
noncomputable def np_euler_gamma : ℝ := Real.eulerMascheroniConstant

/-- The `distribution` dispatch of `StochasticFictitiousPlay.__init__`:
"extreme" selects the Gumbel distribution with location
`-euler_gamma*sqrt(6)/pi` and scale `sqrt(6)/pi`, "normal" the standard
normal, and anything else raises `ValueError` at construction time. -/
noncomputable def sfp_distribution (distribution : String) :
    Except String PerturbationDist :=
  if distribution = "extreme" then
    Except.ok (PerturbationDist.gumbel
      (-np_euler_gamma * Real.sqrt 6 / Real.pi) (Real.sqrt 6 / Real.pi))
  else if distribution = "normal" then
    Except.ok PerturbationDist.stdNormal
  else
    Except.error "`distribution` must be \x27extreme\x27 or \x27normal\x27"

/-- C5 (failing evaluation): in a 2-player game with action counts
`(2, 3)`, the "extreme" branch does configure the Gumbel distribution
with the stated location and scale, but the slice taken for player `i`
has length equal to the sum of the action counts of the opponents, `(3, 2)`
here, not the claimed own action counts `(2, 3)`; adding the length-3
slice to the length-2 payoff vector of player 0 is a numpy broadcast error. -/
theorem sfp_perturbation_slices_bug :
    (payoff_perturbations [2, 3] [1, 2, 3, 4, 5]).map List.length = [3, 2] ∧
    ((payoff_perturbations [2, 3] [1, 2, 3, 4, 5]).map List.length ≠ [2, 3]) ∧
    sfp_distribution "extreme"
      = Except.ok (PerturbationDist.gumbel
          (-np_euler_gamma * Real.sqrt 6 / Real.pi) (Real.sqrt 6 / Real.pi)) := by
  refine ⟨by decide, by decide, ?_⟩
  rw [sfp_distribution, if_pos rfl]

/-- C8: any `tie_breaking` value other than the strings for smallest and
random selection or the boolean `False` makes `Player.best_response`
raise a `ValueError` naming the three accepted values, and any
`distribution` name other than "extreme" or "normal" makes
`StochasticFictitiousPlay` construction raise a `ValueError`; neither is
replaced by a default. -/
theorem invalid_config_errors (tie : TieBreaking) (s : String)
    (h1 : tie ≠ TieBreaking.str "smallest")
    (h2 : tie ≠ TieBreaking.str "random")
    (h3 : tie ≠ TieBreaking.bool false)
    (h4 : s ≠ "extreme") (h5 : s ≠ "normal") :
    (∀ (T : PTensor) (opp : List ActionE) (pert : Option (List ℚ)) (draw : ℕ),
      best_response T opp tie pert draw
        = Except.error "tie_breaking must be one of \x27smallest\x27, \x27random\x27 or False") ∧
    sfp_distribution s
      = Except.error "`distribution` must be \x27extreme\x27 or \x27normal\x27" := by
  constructor
  · intro T opp pert draw
    unfold best_response
    rw [if_neg h1, if_neg h2, if_neg h3]
  · unfold sfp_distribution
    rw [if_neg h4, if_neg h5]

/-- Witness for C8 at `tie_breaking = "largest"` and
`distribution = "uniform"`. -/
theorem invalid_config_errors_witness :
    (∀ (T : PTensor) (opp : List ActionE) (pert : Option (List ℚ)) (draw : ℕ),
      best_response T opp (TieBreaking.str "largest") pert draw
        = Except.error "tie_breaking must be one of \x27smallest\x27, \x27random\x27 or False") ∧
    sfp_distribution "uniform"
      = Except.error "`distribution` must be \x27extreme\x27 or \x27normal\x27" :=
  invalid_config_errors (TieBreaking.str "largest") "uniform"
    (by decide) (by decide) (by decide) (by decide) (by decide)

/-! Part: Logit dynamics (logitdyn.py) -/

/-- The per-opponent-profile maximum over own actions,
`payoff_array_rotated.max(axis=-1)`. -/
def max_own (T : PTensor) (rest : List ℕ) : ℚ :=
  listMax ((List.range (numActions T)).map (fun h => T.entry (h :: rest)))

/-- The in-place effect of `LogitDynamics.__init__` on each player
`payoff_array`: `payoff_array_rotated` is a numpy transpose VIEW of
`payoff_array`, so the in-place subtraction
`payoff_array_rotated -= payoff_array_rotated.max(axis=-1)[..., np.newaxis]`
writes through the view, replacing every entry by the entry minus the
maximum over the own actions of the player at the same opponent profile. -/
def logit_init_payoff (T : PTensor) : PTensor :=
  ⟨T.dims, fun idx => T.entry idx - max_own T (idx.drop 1)⟩

/-- C4 (failing evaluation): constructing `LogitDynamics` over the
coordination game `[[4, 0], [3, 2]]` changes the payoff array of player 0:
entry `(0, 0)` is 4 before and 0 after, so the game is mutated. -/
theorem logit_init_mutates_game :
    (logit_init_payoff (ofMatrix [[4, 0], [3, 2]])).entry [0, 0] = 0 ∧
    (ofMatrix [[4, 0], [3, 2]]).entry [0, 0] = 4 ∧
    (logit_init_payoff (ofMatrix [[4, 0], [3, 2]])).entry [0, 0]
      ≠ (ofMatrix [[4, 0], [3, 2]]).entry [0, 0] := by
  have hmax : max_own (ofMatrix [[4, 0], [3, 2]]) [0] = 4 := by
    show listMax ((List.range 2).map _) = 4
    rw [show List.range 2 = [0, 1] from rfl]
    show listMax [(4 : ℚ), 3] = 4
    show max 4 3 = 4
    norm_num
  refine ⟨?_, by decide, ?_⟩
  · show (4 : ℚ) - max_own (ofMatrix [[4, 0], [3, 2]]) [0] = 0
    rw [hmax]
    norm_num
  · show (4 : ℚ) - max_own (ofMatrix [[4, 0], [3, 2]]) [0] ≠ 4
    rw [hmax]
    norm_num

/-- Running cumulative sum (`ndarray.cumsum`) along a row, with the
accumulator explicit. -/
def cumsumFrom (acc : ℝ) : List ℝ → List ℝ
  | [] => []
  | x :: xs => (acc + x) :: cumsumFrom (acc + x) xs

/-- Source `ndarray.cumsum(axis=-1)` on one row. -/
def cumsum (l : List ℝ) : List ℝ := cumsumFrom 0 l

/-- Source `tuple(actions[i+1:]) + tuple(actions[:i])` from
`LogitDynamics._play`: the current actions of the other players in the cyclic
order seen by player `i`. -/
def logit_opp_profile (actions : List ℕ) (i : ℕ) : List ℕ :=
  actions.drop (i + 1) ++ actions.take i

/-- One row of `player.logit_choice_cdfs` as precomputed by
`LogitDynamics.__init__`: shift the payoffs so the max over own actions
is 0, multiply by `beta`, exponentiate and take the cumulative sum
(left unnormalized). -/
noncomputable def logit_cdf_row (β : ℝ) (T : PTensor) (oppActs : List ℕ) :
    List ℝ :=
  cumsum (((List.range (numActions T)).map
      (fun h => ((T.entry (h :: oppActs) : ℚ) : ℝ))).map
    (fun q => Real.exp ((q - ((max_own T oppActs : ℚ) : ℝ)) * β)))

/-- numpy `searchsorted(..., side="right")` on a sorted row: the right
insertion index, i.e. the number of entries `<=` the searched value
(consumed as an external primitive with these semantics). -/
noncomputable def np_searchsorted_right (l : List ℝ) (v : ℝ) : ℕ :=
  l.countP (fun x => decide (x ≤ v))

/-- Source `LogitDynamics._play(player_ind, actions)` with the uniform draw
`r = random_state.rand()` explicit: search `r * cdf[-1]` in the
cdf row of the revising player at the current actions of the opponents. -/
noncomputable def logit_play (T : PTensor) (β : ℝ) (i : ℕ)
    (actions : List ℕ) (r : ℝ) : ℕ :=
  np_searchsorted_right (logit_cdf_row β T (logit_opp_profile actions i))
    (r * (logit_cdf_row β T (logit_opp_profile actions i)).getLastD 0)

lemma length_cumsumFrom (l : List ℝ) : ∀ acc, (cumsumFrom acc l).length = l.length := by
  induction l with
  | nil => intro acc; rfl
  | cons x xs ih => intro acc; simp [cumsumFrom, ih]

lemma mem_cumsumFrom_pos (l : List ℝ) :
    ∀ acc : ℝ, 0 ≤ acc → (∀ x ∈ l, 0 < x) →
      ∀ y ∈ cumsumFrom acc l, 0 < y := by
  induction l with
  | nil => intro acc _ _ y hy; simp [cumsumFrom] at hy
  | cons x xs ih =>
      intro acc hacc hpos y hy
      rcases List.mem_cons.mp hy with h | h
      · subst h
        have := hpos x (List.mem_cons_self x xs)
        linarith
      · exact ih (acc + x) (by have := hpos x (List.mem_cons_self x xs); linarith)
          (fun z hz => hpos z (List.mem_cons_of_mem x hz)) y h

lemma getLastD_cumsumFrom (l : List ℝ) :
    ∀ acc d : ℝ, (cumsumFrom acc l).getLastD d
      = if l = [] then d else acc + l.sum := by
  induction l with
  | nil => intro acc d; rfl
  | cons x xs ih =>
      intro acc d
      show ((acc + x) :: cumsumFrom (acc + x) xs).getLastD d = _
      rw [List.getLastD_cons, ih (acc + x) (acc + x)]
      by_cases h : xs = []
      · simp [h]
      · rw [if_neg h, if_neg (by simp)]
        simp only [List.sum_cons]
        ring

lemma getLastD_mem {l : List ℝ} (h : l ≠ []) (d : ℝ) : l.getLastD d ∈ l := by
  rw [List.getLastD_eq_getLast?, List.getLast?_eq_getLast l h]
  exact List.getLast_mem h

/-- C10: for every revising player, every profile of the other
current actions and every uniform draw `r` in `[0, 1)`, the
cumulative-weight row is entrywise strictly positive, its last entry is
positive, the searched value `r * cdf[-1]` is strictly below `cdf[-1]`,
and the right-side search returns a valid own action `< n_i`. -/
theorem logit_play_valid (T : PTensor) (β r : ℝ) (i : ℕ) (actions : List ℕ)
    (hn : 1 ≤ numActions T) (hr0 : 0 ≤ r) (hr1 : r < 1) :
    (∀ y ∈ logit_cdf_row β T (logit_opp_profile actions i), 0 < y) ∧
    0 < (logit_cdf_row β T (logit_opp_profile actions i)).getLastD 0 ∧
    r * (logit_cdf_row β T (logit_opp_profile actions i)).getLastD 0
      < (logit_cdf_row β T (logit_opp_profile actions i)).getLastD 0 ∧
    logit_play T β i actions r < numActions T := by
  set w : List ℝ :=
    ((List.range (numActions T)).map
        (fun h => ((T.entry (h :: logit_opp_profile actions i) : ℚ) : ℝ))).map
      (fun q => Real.exp ((q - ((max_own T (logit_opp_profile actions i) : ℚ) : ℝ)) * β))
    with hw
  have hwpos : ∀ x ∈ w, 0 < x := by
    intro x hx
    rw [hw] at hx
    obtain ⟨q, _, rfl⟩ := List.mem_map.mp hx
    exact Real.exp_pos _
  have hwlen : w.length = numActions T := by rw [hw]; simp
  have hwne : w ≠ [] := by
    intro hcon
    rw [hcon] at hwlen
    simp at hwlen
    omega
  have hrow : logit_cdf_row β T (logit_opp_profile actions i) = cumsumFrom 0 w := rfl
  have hpos : ∀ y ∈ logit_cdf_row β T (logit_opp_profile actions i), 0 < y := by
    rw [hrow]
    exact mem_cumsumFrom_pos w 0 (le_refl 0) hwpos
  have hlast : (logit_cdf_row β T (logit_opp_profile actions i)).getLastD 0
      = w.sum := by
    rw [hrow, getLastD_cumsumFrom w 0 0, if_neg hwne]
    ring
  have hlastpos : 0 < (logit_cdf_row β T (logit_opp_profile actions i)).getLastD 0 := by
    rw [hlast]
    exact List.sum_pos w hwpos hwne
  have hvlt : r * (logit_cdf_row β T (logit_opp_profile actions i)).getLastD 0
      < (logit_cdf_row β T (logit_opp_profile actions i)).getLastD 0 := by
    have := mul_lt_mul_of_pos_right hr1 hlastpos
    simpa using this
  refine ⟨hpos, hlastpos, hvlt, ?_⟩
  have hlen : (logit_cdf_row β T (logit_opp_profile actions i)).length
      = numActions T := by
    rw [hrow, length_cumsumFrom]
    exact hwlen
  unfold logit_play np_searchsorted_right
  rw [← hlen]
  apply lt_of_le_of_ne (List.countP_le_length _)
  intro hcon
  have hall := List.countP_eq_length.mp hcon
  have hmem := getLastD_mem
    (l := logit_cdf_row β T (logit_opp_profile actions i)) (by
      intro hcon2
      rw [hcon2] at hlen
      simp at hlen
      omega) 0
  have := hall _ hmem
  simp only [decide_eq_true_eq] at this
  linarith

/-- Witness for C10 on the coordination game `[[4, 0], [3, 2]]` with
`beta = 1`, revising player 0 against actions `(0, 1)` and draw
`r = 1/2`. -/
theorem logit_play_valid_witness :
    (∀ y ∈ logit_cdf_row 1 (ofMatrix [[4, 0], [3, 2]]) (logit_opp_profile [0, 1] 0), 0 < y) ∧
    0 < (logit_cdf_row 1 (ofMatrix [[4, 0], [3, 2]]) (logit_opp_profile [0, 1] 0)).getLastD 0 ∧
    (1/2 : ℝ) * (logit_cdf_row 1 (ofMatrix [[4, 0], [3, 2]]) (logit_opp_profile [0, 1] 0)).getLastD 0
      < (logit_cdf_row 1 (ofMatrix [[4, 0], [3, 2]]) (logit_opp_profile [0, 1] 0)).getLastD 0 ∧
    logit_play (ofMatrix [[4, 0], [3, 2]]) 1 0 [0, 1] (1/2)
      < numActions (ofMatrix [[4, 0], [3, 2]]) :=
  logit_play_valid (ofMatrix [[4, 0], [3, 2]]) 1 (1/2) 0 [0, 1]
    (by decide) (by norm_num) (by norm_num)

end GTM
